import Mathlib

/-!
Shallow embedding of the scm/scheme interpreter sources and proofs about
the behaviour of its type lattice, value operations, builtins, compiler
and virtual machine.  Each definition is translated from the corresponding
Go source function; theorems at the end of the file settle the claims.
-/

set_option maxHeartbeats 1000000

namespace Scm

/-! ## Type lattice (package types, `Enum`, `Super`, `Unify`) -/

/-- Known type values, from the `Enum` constants of package types. -/
inductive Enum where
  | any
  | boolean
  | string
  | character
  | symbol
  | bytevector
  | number
  | exactInteger
  | inexactInteger
  | exactFloat
  | inexactFloat
  | port
  | lambda
  | pair
  | list
  | vector
  deriving DecidableEq, Repr, Fintype

namespace Enum

/-- `Enum.Super` from package types: the type enum's supertype. -/
def Super : Enum → Enum
  | .any | .boolean | .string | .character | .symbol
  | .bytevector | .number | .port | .lambda | .pair
  | .list | .vector => .any
  | .exactInteger | .exactFloat => .number
  | .inexactInteger => .exactInteger
  | .inexactFloat => .exactFloat

/-- Inner loop of `Enum.Unify`: walk `oIter` up by `Super` looking for
`eIter`, stopping after the `any` iteration.  The Go loop is unbounded but
the supertype chain has length at most four, so fuel `16` never runs out. -/
def unifyInner (eIter : Enum) : Enum → Nat → Option Enum
  | _, 0 => none
  | oIter, n + 1 =>
    if eIter = oIter then some eIter
    else if oIter = .any then none
    else unifyInner eIter oIter.Super n

/-- Outer loop of `Enum.Unify`: walk `eIter` up by `Super`, running the
inner walk from `o` at each step. -/
def unifyOuter : Enum → Enum → Nat → Option Enum
  | _, _, 0 => none
  | eIter, o, n + 1 =>
    match unifyInner eIter o 16 with
    | some r => some r
    | none => unifyOuter eIter.Super o n

/-- `Enum.Unify` from package types: resolve the closest supertype of this
and the argument enum.  The default is dead code: the fueled loops always
produce a result (proved in the theorems below by exhaustive evaluation). -/
def Unify (e o : Enum) : Enum :=
  (unifyOuter e o 16).getD .any

/-- The iterated-supertype chain of an enum.  Every chain reaches `any`
within three steps, so four entries list all ancestors (including the
enum itself). -/
def ancestors (e : Enum) : List Enum :=
  [e, e.Super, e.Super.Super, e.Super.Super.Super]

/-- `x` is a common ancestor of `a` and `b` in the supertype tree. -/
def commonAncestor (x a b : Enum) : Prop :=
  x ∈ ancestors a ∧ x ∈ ancestors b

instance (x a b : Enum) : Decidable (commonAncestor x a b) := by
  unfold commonAncestor; infer_instance

end Enum

/-- Two's-complement wrap-around of Go `int64` arithmetic: the result of
an int64 operation whose mathematical value is `z`. -/
def wrap64 (z : Int) : Int := (z + 2 ^ 63) % 2 ^ 64 - 2 ^ 63

/-! ## ByteVector (rnrs_bytevectors.go) -/

/-- A bytevector value: a sequence of unsigned bytes. -/
def ByteVector := List Nat

/-- `ByteVector.Eq` from rnrs_bytevectors.go, after the dynamic type test
has succeeded: two bytevector values are `eq?` exactly when both are
empty (Go slices cannot be compared by identity through this interface). -/
def bvEq (v ov : List Nat) : Bool :=
  if v.length = 0 ∧ ov.length = 0 then true else false

/-- `ByteVector.Equal` from rnrs_bytevectors.go, after the type test:
structural byte-by-byte equality. -/
def bvEqual (v ov : List Nat) : Bool :=
  if v.length ≠ ov.length then false
  else v.zip ov |>.all fun p => p.1 = p.2

/-- Result of a native builtin in the scheme package: a value, a
recoverable error, or a Go runtime panic. -/
inductive NativeRes (α : Type) where
  | ok (v : α)
  | err (msg : String)
  | panics
  deriving DecidableEq, Repr

/-- `bytevector-copy!` from rnrs_bytevectors.go with arguments already
type-checked to a source bytevector, a target bytevector and three int64
indices.  The sums `sourceStart+k` and `targetStart+k` are Go int64
additions and wrap (`wrap64`); all five bounds checks run before the
single `copy`.  A wrapped sum passes its range check and the slice
expression `target[targetStart : targetStart+k]` (or the source one)
then panics, because its upper bound is below its lower bound; otherwise
`copy` transfers `min` of the two slice lengths.  (The formatted
offending values are elided from the error strings.) -/
def bytevectorCopyBang (source : List Nat) (sourceStart : Int)
    (target : List Nat) (targetStart : Int) (k : Int) :
    NativeRes (List Nat) :=
  if sourceStart < 0 then .err "invalid source-start"
  else if targetStart < 0 then .err "invalid target-start"
  else if k < 0 then .err "invalid k"
  else if wrap64 (sourceStart + k) > (source.length : Int) then
    .err "invalid source range"
  else if wrap64 (targetStart + k) > (target.length : Int) then
    .err "invalid target range"
  else if wrap64 (targetStart + k) < targetStart ∨
      wrap64 (sourceStart + k) < sourceStart then
    .panics
  else
    let ss := sourceStart.toNat
    let ts := targetStart.toNat
    let m := min ((wrap64 (targetStart + k)).toNat - ts)
      ((wrap64 (sourceStart + k)).toNat - ss)
    .ok (target.take ts ++ ((source.drop ss).take m) ++ target.drop (ts + m))

/-! ## Strings (package scheme) and the `substring` builtin -/

/-- Number of bytes in the UTF-8 encoding of a character; `len` of a Go
string is its byte count, which is the sum of these over its runes. -/
def utf8Len (c : Char) : Nat :=
  if c.toNat < 0x80 then 1
  else if c.toNat < 0x800 then 2
  else if c.toNat < 0x10000 then 3
  else 4

/-- Byte length of a Go string whose runes are `s` (`len(strv)`). -/
def byteLen (s : List Char) : Nat := (s.map utf8Len).sum

/-- The `substring` builtin from the scheme string builtins, with the
string argument already type-checked (represented by its rune sequence)
and the two index arguments already extracted as int64.  The validation
compares `end` against the byte length `len(strv)` while the slice
`str[start:end]` indexes the rune slice; a slice whose upper bound
exceeds the rune count is a Go panic. -/
def substringNative (strv : List Char) (start end_ : Int) :
    NativeRes (List Char) :=
  let str := strv
  if start < 0 ∨ end_ < start ∨ end_ > (byteLen strv : Int) then
    .err "invalid indices"
  else if end_.toNat ≤ str.length then
    .ok ((str.drop start.toNat).take (end_.toNat - start.toNat))
  else
    .panics

/-! ## Numbers (package scheme, `Number`, `Number.Equal`, builtin `+`) -/

/-- A scheme `Number` value: either a Go `int64` or a `*big.Int`.  The
`i64` payload always lies in `[-2^63, 2^63)`; the printing base is elided
(it only affects `String()`). -/
inductive SNumber where
  | i64 (v : Int)
  | big (v : Int)
  deriving DecidableEq, Repr

/-- Scheme-package runtime values, as far as the settled claims need
them.  `other` stands for the remaining variants (pairs, vectors, ports,
lambdas, ...). -/
inductive SVal where
  | svNil
  | num (n : SNumber)
  | strv (s : List Char)
  | boolV (b : Bool)
  | bytevector (bs : List Nat)
  | other (tag : Nat)
  deriving DecidableEq, Repr

/-- Mathematical value of a `Number`, independent of representation. -/
def SNumber.toInt : SNumber → Int
  | .i64 v => v
  | .big v => v

/-- `Number.Equal` from package scheme: the argument must be a `Number`;
the four representation cases all compare the mathematical values
(`big.Int.Cmp` against the promoted operand). -/
def numberEqual (n : SNumber) (o : SVal) : Bool :=
  match o with
  | .num om =>
    match n, om with
    | .i64 v, .i64 ov => v = ov
    | .i64 v, .big ov => ov = v
    | .big v, .i64 ov => v = ov
    | .big v, .big ov => v = ov
  | _ => false

/-- Loop body of the builtin `+` from the scheme number builtins: fold the
int64 sum over the arguments, rejecting non-`Number` arguments and
`Number`s whose representation is not `int64` (the `default` case returns
the `+: invalid agument` error).  Each Go `sum += v` wraps. -/
def plusLoop : Int → List SVal → NativeRes Int
  | sum, [] => .ok sum
  | sum, arg :: rest =>
    match arg with
    | .num (.i64 v) => plusLoop (wrap64 (sum + v)) rest
    | .num (.big _) => .err "+: invalid agument"
    | _ => .err "+: invalid argument"

/-- The builtin `+` from the scheme number builtins: sum the arguments as
int64 starting from 0 and return `NewNumber(0, sum)`. -/
def numberPlus (args : List SVal) : NativeRes SVal :=
  match plusLoop 0 args with
  | .ok sum => .ok (.num (.i64 sum))
  | .err e => .err e
  | .panics => .panics

/-! ## Symbol table (scheme.go: `Intern`, `Global`, `SetGlobal`) -/

/-- Flag bits of an `Identifier` as used by `Global` and `SetGlobal`.
Modelled from the spec: the `Flags` constants file is not among the
sources; the spec names flag bits `Defined`, `Const`, `Final` on an
interned symbol, of which these two are the ones the modelled functions
test or set. -/
structure SFlags where
  defined : Bool
  isConst : Bool
  deriving DecidableEq, Repr

/-- An interned scheme-package `Identifier`: its global value (Go `nil`
when unset) and its flag bits.  The name and declared global type are
elided. -/
structure SchemeId where
  global : Option SVal
  flags : SFlags
  deriving DecidableEq, Repr

/-- The symbol table `scm.symbols`: a map from names to interned
identifiers. -/
def SymTable := String → Option SchemeId

/-- `Scheme.Intern`: return the interned symbol for the name, creating a
fresh identifier with zero flags and no global value when absent.  The
result pairs the (possibly extended) table with the symbol. -/
def intern (tbl : SymTable) (name : String) : SymTable × SchemeId :=
  match tbl name with
  | some id => (tbl, id)
  | none =>
    let id : SchemeId := ⟨none, ⟨false, false⟩⟩
    (fun n => if n = name then some id else tbl n, id)

/-- `Scheme.Global` from scheme.go: look the name up without interning;
fail when it is absent or its `Defined` flag is clear. -/
def schemeGlobal (tbl : SymTable) (name : String) :
    Except String (Option SVal) :=
  match tbl name with
  | some id =>
    if id.flags.defined then .ok id.global else .error "undefined symbol"
  | none => .error "undefined symbol"

/-- `Scheme.SetGlobal` from scheme.go: intern the name; fail when the
symbol carries the `Const` flag; otherwise set its `Defined` flag and its
global value.  The result pairs the updated table with the optional
error. -/
def setGlobal (tbl : SymTable) (name : String) (v : SVal) :
    SymTable × Option String :=
  let p := intern tbl name
  if p.2.flags.isConst then (p.1, some "cant reset final symbol")
  else
    (fun n =>
      if n = name then some ⟨some v, ⟨true, p.2.flags.isConst⟩⟩ else p.1 n,
     none)

/-! ## Virtual machine (package scm, part 000: `VM`, `Execute`,
`pushFrame`, `popFrame`) -/

/-- A scm `Lambda` value: argument arity bounds, an optional native
function (represented by an index into the ambient native table) and the
code region of a compiled body.  The unused `Locals` field is elided. -/
structure LambdaV where
  minArgs : Nat
  maxArgs : Nat
  native : Option Nat
  codeStart : Nat
  codeEnd : Nat
  deriving DecidableEq, Repr

/-- A scm `Frame` value: the caller frame pointer, the callee lambda
(`nil` for the toplevel frame) and the toplevel marker. -/
structure FrameV where
  next : Nat
  lambda : Option LambdaV
  toplevel : Bool
  deriving DecidableEq, Repr

/-- Runtime values of the scm VM.  `vNil` is the Go `nil` interface
value; cons cells, vectors and characters are irrelevant to the settled
claims and folded into `vSym`-like leaves. -/
inductive Val where
  | vNil
  | vBool (b : Bool)
  | vNum (n : Int)
  | vStr (s : String)
  | vSym (name : String)
  | vLam (l : LambdaV)
  | vFrame (f : FrameV)
  deriving DecidableEq, Repr

/-- One scope on the VM's stack of scopes. -/
abbrev Scope := List Val

/-- Bytecode operands of the scm VM. -/
inductive Operand where
  | opConst
  | opDefine
  | opLambda
  | opLabel
  | opLocal
  | opGlobal
  | opLocalSet
  | opGlobalSet
  | opPushF
  | opPopF
  | opPushS
  | opPopS
  | opCall
  | opReturn
  | opHalt
  deriving DecidableEq, Repr

/-- A scm bytecode instruction: opcode, constant payload `V`, integer
operands `I`, `J` (natural in the model: the compiler only emits
non-negative operands) and the symbol operand (by name). -/
structure Instr where
  op : Operand
  v : Val := .vNil
  i : Nat := 0
  j : Nat := 0
  sym : String := ""
  deriving DecidableEq, Repr

/-- The mutable state of the scm VM: program counter, frame pointer, the
accumulator, the stack of scopes and the global bindings of interned
symbols (Go `nil` when undefined). -/
structure VMState where
  pc : Nat
  fp : Nat
  accu : Val
  stack : List Scope
  globals : String → Val

/-- Interpretation of native-function indices, per the native-function
contract: a native computes a value or an error from its argument
slice. -/
def NativeTable := Nat → List Val → Except String Val

/-- `VM.pushFrame` from part 000: validate that the slot at `fp` (when it
exists) holds exactly one `Frame` value (otherwise Go panics, modelled as
`.error`), then append a one-slot scope holding a fresh frame whose
`Next` is the old `fp`, and point `fp` at it. -/
def pushFrameFn (lam : Option LambdaV) (toplevel : Bool) (s : VMState) :
    Except String VMState :=
  match s.stack[s.fp]? with
  | some scope =>
    match scope with
    | [Val.vFrame _] =>
      .ok { s with
              fp := s.stack.length
              stack := s.stack ++ [[Val.vFrame ⟨s.fp, lam, toplevel⟩]] }
    | _ => .error "invalid frame"
  | none =>
    .ok { s with
            fp := s.stack.length
            stack := s.stack ++ [[Val.vFrame ⟨s.fp, lam, toplevel⟩]] }

/-- `VM.popFrame` from part 000: the slot at `fp` must hold exactly one
`Frame` value (otherwise Go panics); truncate the stack to `fp` and
restore `fp` from the frame's `Next`. -/
def popFrameFn (s : VMState) : Except String VMState :=
  match s.stack[s.fp]? with
  | none => .error "index out of range"
  | some scope =>
    match scope with
    | [Val.vFrame f] => .ok { s with stack := s.stack.take s.fp, fp := f.next }
    | _ => .error "invalid frame"

/-- Result of executing one instruction of `VM.Execute`: a successor
state, a recoverable error returned from `Execute`, the final value
produced by `Halt`, or a Go panic. -/
inductive StepRes where
  | next (s : VMState)
  | fail (e : String)
  | halted (v : Val)
  | panicked (e : String)

/-- One iteration of the `VM.Execute` loop of part 000 on instruction
`ins`: the program counter is incremented first, then the instruction is
dispatched.  Opcodes missing from the loop's switch fall to the `default`
case and fail with a `not implemented` error.  (Formatted offending
values are elided from error strings.) -/
def execInstr (N : NativeTable) (ins : Instr) (s0 : VMState) : StepRes :=
  let s := { s0 with pc := s0.pc + 1 }
  match ins.op with
  | .opConst => .next { s with accu := ins.v }
  | .opDefine =>
    .next { s with globals := fun n => if n = ins.sym then s.accu else s.globals n }
  | .opLambda => .next { s with accu := .vLam ⟨1, 1, none, ins.i, ins.j⟩ }
  | .opGlobal => .next { s with accu := s.globals ins.sym }
  | .opLocalSet =>
    match s.stack[s.fp + 1 + ins.i]? with
    | none => .panicked "index out of range"
    | some scope =>
      if ins.j < scope.length then
        .next { s with stack := s.stack.set (s.fp + 1 + ins.i) (scope.set ins.j s.accu) }
      else .panicked "index out of range"
  | .opPushF =>
    match s.accu with
    | .vLam l =>
      match pushFrameFn (some l) (ins.i ≠ 0) s with
      | .ok s' => .next s'
      | .error e => .panicked e
    | _ => .fail "invalid function"
  | .opPushS => .next { s with stack := s.stack ++ [List.replicate ins.i Val.vNil] }
  | .opCall =>
    match s.stack[s.fp]? with
    | none => .panicked "index out of range"
    | some scope =>
      match scope[0]? with
      | none => .panicked "index out of range"
      | some (Val.vFrame f) =>
        match f.lambda with
        | none => .fail "invalid function"
        | some lam =>
          match s.stack.getLast? with
          | none => .panicked "index out of range"
          | some args =>
            if args.length < lam.minArgs then .fail "too few arguments"
            else if args.length > lam.maxArgs then .fail "too many arguments"
            else
              match lam.native with
              | some nid =>
                match N nid args with
                | .ok v' =>
                  match popFrameFn { s with accu := v' } with
                  | .ok s' => .next s'
                  | .error e => .panicked e
                | .error e => .fail e
              | none => .fail "call: not native"
      | some _ => .fail "invalid function"
  | .opHalt =>
    match popFrameFn s with
    | .ok s' => .halted s'.accu
    | .error e => .panicked e
  | _ => .fail "not implemented"

/-- The state of `VM.Execute` right after its initial
`pushFrame(nil, true)` on a fresh VM whose globals are `g`: a single
one-slot scope holding the toplevel frame, with `fp = 0`. -/
def initVM (g : String → Val) : VMState :=
  { pc := 0, fp := 0, accu := .vNil
    stack := [[Val.vFrame ⟨0, none, true⟩]], globals := g }

/-- States reachable by the `VM.Execute` loop from its initial state,
executing arbitrary instructions. -/
inductive Reaches (N : NativeTable) : VMState → Prop where
  | init (g : String → Val) : Reaches N (initVM g)
  | step (s : VMState) (ins : Instr) (s' : VMState) :
      Reaches N s → execInstr N ins s = .next s' → Reaches N s'

/-- Head-scope side condition of the frame-chain invariant: when the
bottom stack slot holds a single frame, that frame's `Next` is `0`. -/
def headFrameOK (stack : List Scope) : Bool :=
  match stack.head? with
  | some [Val.vFrame f] => f.next = 0
  | _ => true

/-- Frame-chain invariant of the VM stack: `fp` is `0` (with the bottom
slot, if it is a frame, closing the chain), or `fp` addresses a one-slot
scope holding a frame whose `Next` points strictly below, where the
invariant holds recursively on the truncated stack. -/
def chainOK (stack : List Scope) (fp : Nat) : Bool :=
  if fp = 0 then headFrameOK stack
  else if h : fp < stack.length then
    match stack[fp] with
    | [Val.vFrame f] => decide (f.next < fp) && chainOK (stack.take fp) f.next
    | _ => false
  else false
termination_by stack.length
decreasing_by simp [List.length_take]; omega

/-! ## Compiler (scheme.go: `ASTLet.Bytecode` and the AST fragment it
depends on) -/

/-- Compile-time frame shapes: stack frames and heap (`Env`) frames. -/
inductive FrameType where
  | stack
  | env
  deriving DecidableEq, Repr

/-- A resolved `EnvBinding`: the enclosing frame's type and index and the
binding's slot index within it. -/
structure BindingRef where
  frameType : FrameType
  frameIndex : Nat
  index : Nat
  deriving DecidableEq, Repr

/-- Instructions emitted by the compiler fragment, per the spec's
instruction table (the evolved `Operand` constants are not among the
sources).  `cPushS`/`cPopS` carry the slot count and the captures flag. -/
inductive CInstr where
  | cConst (v : SVal)
  | cGlobal (sym : String)
  | cLocalSet (i : Nat)
  | cEnvSet (i j : Nat)
  | cPushS (n : Nat) (captures : Bool)
  | cPopS (n : Nat) (captures : Bool)
  deriving DecidableEq, Repr

/-- Compiler state: the instruction stream emitted so far (labels and the
lambda table play no role in the `let` fragment). -/
structure CompilerState where
  code : List CInstr
  deriving DecidableEq, Repr

/-- `Compiler.addInstr`.  Modelled from the spec: the compiler helpers
are not among the sources; `addInstr` appends one instruction to the
stream. -/
def addInstr (c : CompilerState) (ins : CInstr) : CompilerState :=
  { c with code := c.code ++ [ins] }

/-- `Compiler.addPushS`.  Modelled from the spec: emits one `PushS`
carrying the slot count and the captures flag. -/
def addPushS (c : CompilerState) (n : Nat) (captures : Bool) : CompilerState :=
  addInstr c (.cPushS n captures)

/-- `Compiler.addPopS`.  Modelled from the spec: emits one `PopS`
carrying the slot count and the captures flag. -/
def addPopS (c : CompilerState) (n : Nat) (captures : Bool) : CompilerState :=
  addInstr c (.cPopS n captures)

mutual

/-- The AST fragment needed by `ASTLet.Bytecode`: constants, identifiers
compiled as globals, sequences, and `let` forms. -/
inductive CAst where
  | constant (v : SVal)
  | identifier (name : String)
  | sequence (items : List CAst)
  | letForm (captures tail : Bool) (bindings : List CLetBinding) (body : List CAst)

/-- An `ASTLetBinding`: its resolved `EnvBinding` and initializer. -/
inductive CLetBinding where
  | mk (binding : BindingRef) (init : CAst)

end

/-- The `LocalSet`/`EnvSet` instruction `ASTLet.Bytecode` (and
`ASTSet.Bytecode`) emit for a resolved binding: `LocalSet` at
`frame.Index + binding.Index` for a stack frame, `EnvSet` with operands
`frame.Index` and `binding.Index` for a heap frame. -/
def letSetInstr (b : BindingRef) : CInstr :=
  match b.frameType with
  | .stack => .cLocalSet (b.frameIndex + b.index)
  | .env => .cEnvSet b.frameIndex b.index

mutual

/-- `AST.Bytecode` over the modelled fragment.  The `letForm` case is
`ASTLet.Bytecode`: `PushS` for the bindings, each initializer followed by
its `LocalSet`/`EnvSet`, the body in order, and — only when the let is
not in tail position — the closing `PopS`. -/
def bytecode : CAst → CompilerState → Except String CompilerState
  | .constant v, c => .ok (addInstr c (.cConst v))
  | .identifier name, c => .ok (addInstr c (.cGlobal name))
  | .sequence items, c => bytecodeList items c
  | .letForm captures tail bindings body, c =>
    let c1 := addPushS c bindings.length captures
    match bytecodeBindings bindings c1 with
    | .error e => .error e
    | .ok c2 =>
      match bytecodeList body c2 with
      | .error e => .error e
      | .ok c3 => .ok (if tail then c3 else addPopS c3 bindings.length captures)

/-- The bindings loop of `ASTLet.Bytecode`: emit each initializer, then
the binding's `LocalSet`/`EnvSet`. -/
def bytecodeBindings : List CLetBinding → CompilerState → Except String CompilerState
  | [], c => .ok c
  | .mk b init :: rest, c =>
    match bytecode init c with
    | .error e => .error e
    | .ok c1 => bytecodeBindings rest (addInstr c1 (letSetInstr b))

/-- The body loop of `ASTLet.Bytecode` (also `ASTSequence.Bytecode`):
emit each item in order. -/
def bytecodeList : List CAst → CompilerState → Except String CompilerState
  | [], c => .ok c
  | a :: rest, c =>
    match bytecode a c with
    | .error e => .error e
    | .ok c1 => bytecodeList rest c1

end

/-- Compiling `a` from state `c` succeeds, emitting exactly the
instructions `d`. -/
def Emits (c : CompilerState) (a : CAst) (d : List CInstr) (c' : CompilerState) : Prop :=
  bytecode a c = .ok c' ∧ c'.code = c.code ++ d

/-- The emission discipline of the bindings loop: for each binding, its
initializer's instructions followed by its `LocalSet`/`EnvSet`. -/
inductive EmitsBindings :
    CompilerState → List CLetBinding → List CInstr → CompilerState → Prop where
  | nil (c : CompilerState) : EmitsBindings c [] [] c
  | cons (c c1 c2 : CompilerState) (b : BindingRef) (init : CAst)
      (rest : List CLetBinding) (d ds : List CInstr) :
      Emits c init d c1 →
      EmitsBindings (addInstr c1 (letSetInstr b)) rest ds c2 →
      EmitsBindings c (.mk b init :: rest) (d ++ [letSetInstr b] ++ ds) c2

/-- The emission discipline of a list of expressions: each item's
instructions in order. -/
inductive EmitsList :
    CompilerState → List CAst → List CInstr → CompilerState → Prop where
  | nil (c : CompilerState) : EmitsList c [] [] c
  | cons (c c1 c2 : CompilerState) (a : CAst) (rest : List CAst)
      (d ds : List CInstr) :
      Emits c a d c1 →
      EmitsList c1 rest ds c2 →
      EmitsList c (a :: rest) (d ++ ds) c2

/-! ## Concrete fixtures used by the witness theorems -/

/-- Globals map binding every symbol to the Go `nil` value. -/
def gNilW : String → Val := fun _ => Val.vNil

/-- Native table whose every entry returns `nil`. -/
def NOkW : NativeTable := fun _ _ => Except.ok Val.vNil

/-- A native lambda taking exactly one argument. -/
def lamW : LambdaV := ⟨1, 1, some 0, 0, 0⟩

/-- A call frame holding `lamW`. -/
def frameCallW : FrameV := ⟨0, some lamW, true⟩

/-- A VM state about to execute `Call`: the frame scope at `fp = 0` and a
one-value argument scope on top. -/
def sCallW : VMState :=
  { pc := 0, fp := 0, accu := Val.vNil
    stack := [[Val.vFrame frameCallW], [Val.vNil]], globals := gNilW }

/-- A bare `Call` instruction. -/
def callInsW : Instr := { op := .opCall }

/-- A `Global` instruction referring to the symbol `x`. -/
def globalInsW : Instr := { op := .opGlobal, sym := "x" }

/-- The empty symbol table. -/
def tblNoneW : SymTable := fun _ => none

/-- A stack-frame let binding whose initializer is the constant 1. -/
def letBindW : CLetBinding := .mk ⟨.stack, 0, 0⟩ (.constant (.num (.i64 1)))

/-- A one-expression let body: the constant 2. -/
def letBodyW : CAst := .constant (.num (.i64 2))

/-- The compiler state produced by compiling the fixture let form. -/
def cLetW : CompilerState :=
  ⟨[CInstr.cPushS 1 false, .cConst (.num (.i64 1)), .cLocalSet 0,
    .cConst (.num (.i64 2)), .cPopS 1 false]⟩

end Scm

namespace Scm

/-! ## Theorems settling the claims -/

/-- Claim C8: for every pair of type enums, `Unify` returns the least
common ancestor in the supertype tree rooted at `any` (every common
ancestor of `a` and `b` is an ancestor of `Unify a b`); consequently
`Unify` is commutative, idempotent on the diagonal, and absorbs into
`any`. -/
theorem enum_unify_least_common_ancestor :
    (∀ a b : Enum, Enum.commonAncestor (a.Unify b) a b) ∧
    (∀ a b x : Enum, Enum.commonAncestor x a b → x ∈ (a.Unify b).ancestors) ∧
    (∀ a b : Enum, a.Unify b = b.Unify a) ∧
    (∀ a : Enum, a.Unify a = a) ∧
    (∀ b : Enum, Enum.any.Unify b = Enum.any) := by
  refine ⟨by decide, by decide, by decide, by decide, by decide⟩

/-- Claim C8 witness: the common ancestor `number` of `inexactInteger`
and `inexactFloat` is an ancestor of their unifier. -/
theorem enum_unify_least_common_ancestor_witness :
    Enum.number ∈ (Enum.inexactInteger.Unify Enum.inexactFloat).ancestors :=
  enum_unify_least_common_ancestor.2.1 .inexactInteger .inexactFloat .number
    (by decide)

/-- Claim C9 counterexample: `ByteVector.Eq` is not reflexive — applied
to the one-byte bytevector `#vu8(1)` and itself it returns false. -/
theorem bvEq_not_reflexive : bvEq [1] [1] = false := by decide

/-- Claim C9 (amended): `ByteVector.Eq` returns true exactly when both
bytevectors are empty (it is reflexive only on the empty bytevector),
and whenever `Eq` returns true for two bytevectors, `Equal` also returns
true for them. -/
theorem bvEq_iff_empty_and_le_equal :
    (∀ v ov : List Nat, bvEq v ov = true ↔ v = [] ∧ ov = []) ∧
    (∀ v ov : List Nat, bvEq v ov = true → bvEqual v ov = true) := by
  have h1 : ∀ v ov : List Nat, bvEq v ov = true ↔ v = [] ∧ ov = [] := by
    intro v ov
    simp [bvEq, List.length_eq_zero]
  refine ⟨h1, fun v ov h => ?_⟩
  obtain ⟨hv, hov⟩ := (h1 v ov).mp h
  subst hv; subst hov
  rfl

/-- Claim C9 witness: the `Eq`-implies-`Equal` direction at the empty
bytevectors. -/
theorem bvEq_iff_empty_and_le_equal_witness : bvEqual [] [] = true :=
  bvEq_iff_empty_and_le_equal.2 [] [] (by decide)

/-- Claim C7: evaluation of the `substring` builtin can fault.  On the
one-rune, two-byte string `"ä"` with indices 0 and 2 the validation
passes (it compares against the byte length) and the rune-slice indexing
panics, while the ASCII example `(substring "hello" 1 4)` returns
`"ell"` as documented. -/
theorem substring_panics_on_multibyte :
    substringNative ['ä'] 0 2 = .panics ∧
    substringNative "hello".toList 1 4 = .ok "ell".toList := by decide

/-- Claim C3 counterexample: `+` on the two int64 numbers `2^63 - 1` and
`1` wraps to `-2^63` instead of promoting to a bigint — the result is
not `Number.Equal` to the exact sum `2^63` — and a bigint argument is
rejected with an error instead of being accepted. -/
theorem numberPlus_wraps_and_rejects_big :
    numberPlus [.num (.i64 (2 ^ 63 - 1)), .num (.i64 1)] =
      .ok (.num (.i64 (-(2 ^ 63)))) ∧
    numberEqual (.i64 (-(2 ^ 63))) (.num (.big (2 ^ 63))) = false ∧
    numberPlus [.num (.big 1)] = .err "+: invalid agument" := by decide

/-- Wrapping int64 addition absorbs an already-wrapped left operand. -/
theorem wrap64_wrap64_add (a b : Int) : wrap64 (wrap64 a + b) = wrap64 (a + b) := by
  simp only [wrap64]
  have h : (2 : Int) ^ 63 = 9223372036854775808 := by norm_num
  have h2 : (2 : Int) ^ 64 = 18446744073709551616 := by norm_num
  rw [h, h2]
  omega

/-- The int64 `+` loop over i64 arguments folds the wrapping addition. -/
theorem plusLoop_foldl (vs : List Int) (s : Int) :
    plusLoop s (vs.map fun v => SVal.num (.i64 v)) =
      .ok (vs.foldl (fun a v => wrap64 (a + v)) s) := by
  induction vs generalizing s with
  | nil => rfl
  | cons v rest ih => simp [plusLoop, List.foldl_cons, ih]

/-- Folding the wrapping addition from a wrapped seed yields the wrapped
mathematical sum. -/
theorem foldl_wrap64 (vs : List Int) (s : Int) :
    vs.foldl (fun a v => wrap64 (a + v)) (wrap64 s) = wrap64 (s + vs.sum) := by
  induction vs generalizing s with
  | nil => simp
  | cons v rest ih =>
    simp only [List.foldl_cons, wrap64_wrap64_add, ih, List.sum_cons]
    congr 1
    ring

/-- The `+` loop hits a bigint argument: whatever int64 prefix precedes
it, the result is the invalid-argument error. -/
theorem plusLoop_big (pre : List Int) (b : Int) (rest : List SVal) (s : Int) :
    plusLoop s ((pre.map fun v => SVal.num (.i64 v)) ++ .num (.big b) :: rest) =
      .err "+: invalid agument" := by
  induction pre generalizing s with
  | nil => rfl
  | cons v pre ih => simpa [plusLoop] using ih (wrap64 (s + v))

/-- Claim C3 (amended): for every list of exact int64 `Number` arguments,
`+` returns the int64 sum wrapped modulo `2^64` (no bigint promotion);
`(+ 1 2 3)` evaluates to `Number 6`; a bigint `Number` argument is
rejected with an invalid-argument error rather than accepted; and
`Number.Equal` normalizes by comparing mathematical values, so the
representation does not affect equality. -/
theorem numberPlus_wrapped_sum :
    (∀ vs : List Int,
      numberPlus (vs.map fun v => SVal.num (.i64 v)) =
        .ok (.num (.i64 (wrap64 vs.sum)))) ∧
    numberPlus [.num (.i64 1), .num (.i64 2), .num (.i64 3)] =
      .ok (.num (.i64 6)) ∧
    (∀ (pre : List Int) (b : Int) (rest : List SVal),
      numberPlus ((pre.map fun v => SVal.num (.i64 v)) ++ .num (.big b) :: rest) =
        .err "+: invalid agument") ∧
    (∀ n om : SNumber, numberEqual n (.num om) = decide (n.toInt = om.toInt)) := by
  refine ⟨?_, by decide, ?_, ?_⟩
  · intro vs
    cases vs with
    | nil =>
      show NativeRes.ok (SVal.num (.i64 0)) = .ok (.num (.i64 (wrap64 0)))
      norm_num [wrap64]
    | cons v rest =>
      simp only [numberPlus, plusLoop_foldl, List.foldl_cons, List.sum_cons]
      have hv : wrap64 (0 + v) = wrap64 v := by norm_num
      rw [hv, foldl_wrap64]
  · intro pre b rest
    simp only [numberPlus, plusLoop_big]
  · intro n om
    cases n <;> cases om <;> simp [numberEqual, SNumber.toInt, eq_comm]

/-- Claim C3 witness: the bigint-rejection part at the one-element
argument list `(+ #e1)`. -/
theorem numberPlus_wrapped_sum_witness :
    numberPlus [SVal.num (.big 1)] = .err "+: invalid agument" :=
  numberPlus_wrapped_sum.2.2.1 [] 1 []

/-- Claim C5: `SetGlobal` returns an error if and only if the interned
symbol for the name carries the `Const` flag; on success the symbol's
`Defined` flag is set and its global value becomes the given value; on
error the whole symbol table (in particular the symbol's flags and
global value) is left unchanged. -/
theorem setGlobal_const_guard (tbl : SymTable) (name : String) (v : SVal) :
    ((setGlobal tbl name v).2.isSome ↔ (intern tbl name).2.flags.isConst = true) ∧
    ((setGlobal tbl name v).2 = none →
      (setGlobal tbl name v).1 name = some ⟨some v, ⟨true, (intern tbl name).2.flags.isConst⟩⟩) ∧
    ((setGlobal tbl name v).2.isSome → (setGlobal tbl name v).1 = tbl) := by
  rcases h : tbl name with _ | id
  · have hi : intern tbl name =
        (fun n => if n = name then some ⟨none, ⟨false, false⟩⟩ else tbl n,
         (⟨none, ⟨false, false⟩⟩ : SchemeId)) := by
      unfold intern
      rw [h]
    refine ⟨by simp [setGlobal, hi], fun _ => by simp [setGlobal, hi], ?_⟩
    intro habs
    simp [setGlobal, hi] at habs
  · have hi : intern tbl name = (tbl, id) := by
      unfold intern
      rw [h]
    rcases hc : id.flags.isConst with _ | _
    · refine ⟨by simp [setGlobal, hi, hc], fun _ => by simp [setGlobal, hi, hc], ?_⟩
      intro habs
      simp [setGlobal, hi, hc] at habs
    · refine ⟨by simp [setGlobal, hi, hc], ?_, fun _ => by simp [setGlobal, hi, hc]⟩
      intro habs
      simp [setGlobal, hi, hc] at habs

/-- Claim C5 witness: setting a global on the empty symbol table
succeeds and stores the value with the `Defined` flag set. -/
theorem setGlobal_const_guard_witness :
    (setGlobal tblNoneW "x" SVal.svNil).1 "x" =
      some ⟨some SVal.svNil, ⟨true, (intern tblNoneW "x").2.flags.isConst⟩⟩ :=
  (setGlobal_const_guard tblNoneW "x" SVal.svNil).2.1 rfl

/-- An int64-range value is its own wrap-around. -/
theorem wrap64_eq_self (z : Int) (h1 : -(2 ^ 63) ≤ z) (h2 : z < 2 ^ 63) :
    wrap64 z = z := by
  simp only [wrap64]
  have ha : (2 : Int) ^ 63 = 9223372036854775808 := by norm_num
  have hb : (2 : Int) ^ 64 = 18446744073709551616 := by norm_num
  rw [ha] at h1 h2
  rw [ha, hb]
  omega

/-- An int64 sum that overflows upward wraps down by `2^64`. -/
theorem wrap64_sub (z : Int) (h1 : 2 ^ 63 ≤ z) (h2 : z < 2 ^ 64) :
    wrap64 z = z - 2 ^ 64 := by
  simp only [wrap64]
  have ha : (2 : Int) ^ 63 = 9223372036854775808 := by norm_num
  have hb : (2 : Int) ^ 64 = 18446744073709551616 := by norm_num
  rw [ha] at h1
  rw [hb] at h2
  rw [ha, hb]
  omega

/-- Claim C10: `bytevector-copy!` is atomic and frame-bounded for int64
arguments.  It errors exactly when one of the five bounds checks — over
the wrapping int64 sums the code computes — fails, all of which run
before any mutation (the error cases return the bytevectors untouched);
it reaches the slice-expression panic exactly when every check passes
but an int64 sum overflowed; and on success the `k` target bytes from
`targetStart` become the `k` source bytes from `sourceStart`, every
target byte outside that range is unchanged, and the source — being a
distinct value — is not written at all. -/
theorem bytevectorCopyBang_frame (source : List Nat) (ss : Int)
    (target : List Nat) (ts : Int) (k : Int)
    (hss : ss < 2 ^ 63) (hts : ts < 2 ^ 63) (hk : k < 2 ^ 63) :
    ((∃ e, bytevectorCopyBang source ss target ts k = .err e) ↔
      (ss < 0 ∨ ts < 0 ∨ k < 0 ∨ wrap64 (ss + k) > (source.length : Int) ∨
        wrap64 (ts + k) > (target.length : Int))) ∧
    (bytevectorCopyBang source ss target ts k = .panics ↔
      (0 ≤ ss ∧ 0 ≤ ts ∧ 0 ≤ k ∧ wrap64 (ss + k) ≤ (source.length : Int) ∧
        wrap64 (ts + k) ≤ (target.length : Int) ∧
        (2 ^ 63 ≤ ss + k ∨ 2 ^ 63 ≤ ts + k))) ∧
    (∀ t', bytevectorCopyBang source ss target ts k = .ok t' →
      t'.length = target.length ∧
      ∀ i : Nat, i < target.length →
        t'[i]? = if ts.toNat ≤ i ∧ i < ts.toNat + k.toNat
                 then source[ss.toNat + (i - ts.toNat)]?
                 else target[i]?) := by
  unfold bytevectorCopyBang
  split_ifs with h1 h2 h3 h4 h5 h6
  · exact ⟨⟨fun _ => Or.inl h1, fun _ => ⟨_, rfl⟩⟩,
      ⟨fun hc => by simp at hc, fun hr => absurd hr.1 (by omega)⟩,
      fun t' ht => by simp at ht⟩
  · exact ⟨⟨fun _ => Or.inr (Or.inl h2), fun _ => ⟨_, rfl⟩⟩,
      ⟨fun hc => by simp at hc, fun hr => absurd hr.2.1 (by omega)⟩,
      fun t' ht => by simp at ht⟩
  · exact ⟨⟨fun _ => Or.inr (Or.inr (Or.inl h3)), fun _ => ⟨_, rfl⟩⟩,
      ⟨fun hc => by simp at hc, fun hr => absurd hr.2.2.1 (by omega)⟩,
      fun t' ht => by simp at ht⟩
  · exact ⟨⟨fun _ => Or.inr (Or.inr (Or.inr (Or.inl h4))), fun _ => ⟨_, rfl⟩⟩,
      ⟨fun hc => by simp at hc, fun hr => absurd hr.2.2.2.1 (by omega)⟩,
      fun t' ht => by simp at ht⟩
  · exact ⟨⟨fun _ => Or.inr (Or.inr (Or.inr (Or.inr h5))), fun _ => ⟨_, rfl⟩⟩,
      ⟨fun hc => by simp at hc, fun hr => absurd hr.2.2.2.2.1 (by omega)⟩,
      fun t' ht => by simp at ht⟩
  · -- the slice-expression panic: every check passed, a sum wrapped
    have hov : 2 ^ 63 ≤ ss + k ∨ 2 ^ 63 ≤ ts + k := by
      rcases h6 with h6 | h6
      · right
        by_contra hlt
        push_neg at hlt
        rw [wrap64_eq_self (ts + k) (by omega) hlt] at h6
        omega
      · left
        by_contra hlt
        push_neg at hlt
        rw [wrap64_eq_self (ss + k) (by omega) hlt] at h6
        omega
    refine ⟨?_, ?_, fun t' ht => by simp at ht⟩
    · constructor
      · rintro ⟨e, he⟩
        simp at he
      · intro hd
        rcases hd with h | h | h | h | h <;> omega
    · exact ⟨fun _ => ⟨by omega, by omega, by omega, by omega, by omega, hov⟩,
        fun _ => rfl⟩
  · -- success: no check failed and no sum wrapped
    push_neg at h6
    have hno1 : wrap64 (ss + k) = ss + k := by
      by_cases hlt : ss + k < 2 ^ 63
      · exact wrap64_eq_self (ss + k) (by omega) hlt
      · exfalso
        have hw := wrap64_sub (ss + k) (by omega) (by omega)
        have h62 := h6.2
        omega
    have hno2 : wrap64 (ts + k) = ts + k := by
      by_cases hlt : ts + k < 2 ^ 63
      · exact wrap64_eq_self (ts + k) (by omega) hlt
      · exfalso
        have hw := wrap64_sub (ts + k) (by omega) (by omega)
        have h61 := h6.1
        omega
    have hsrc : ss.toNat + k.toNat ≤ source.length := by omega
    have htgt : ts.toNat + k.toNat ≤ target.length := by omega
    have hm : min ((wrap64 (ts + k)).toNat - ts.toNat)
        ((wrap64 (ss + k)).toNat - ss.toNat) = k.toNat := by
      rw [hno1, hno2]
      omega
    refine ⟨?_, ?_, ?_⟩
    · constructor
      · rintro ⟨e, he⟩
        simp at he
      · intro hd
        rcases hd with h | h | h | h | h <;> omega
    · constructor
      · intro hc
        simp at hc
      · rintro ⟨-, -, -, -, -, hd⟩
        rcases hd with hd | hd
        · have hw := wrap64_sub (ss + k) (by omega) (by omega)
          omega
        · have hw := wrap64_sub (ts + k) (by omega) (by omega)
          omega
    · intro t' ht
      dsimp only at ht
      rw [hm] at ht
      replace ht := (NativeRes.ok.inj ht).symm
      subst ht
      have hA : (target.take ts.toNat).length = ts.toNat := by
        rw [List.length_take]
        omega
      have hB : ((source.drop ss.toNat).take k.toNat).length = k.toNat := by
        rw [List.length_take, List.length_drop]
        omega
      constructor
      · simp only [List.length_append, hA, hB, List.length_drop]
        omega
      · intro i hi
        rw [List.append_assoc, List.getElem?_append]
        by_cases hc1 : i < ts.toNat
        · rw [if_pos (by omega : i < (target.take ts.toNat).length),
            List.getElem?_take, if_pos hc1, if_neg (by omega)]
        · rw [if_neg (by omega : ¬ i < (target.take ts.toNat).length), hA,
            List.getElem?_append]
          by_cases hc2 : i < ts.toNat + k.toNat
          · rw [if_pos (by omega : i - ts.toNat <
                ((source.drop ss.toNat).take k.toNat).length),
              List.getElem?_take, if_pos (by omega : i - ts.toNat < k.toNat),
              List.getElem?_drop, if_pos ⟨by omega, hc2⟩]
          · rw [if_neg (by omega : ¬ i - ts.toNat <
                ((source.drop ss.toNat).take k.toNat).length), hB,
              List.getElem?_drop, if_neg (by omega)]
            congr 1
            omega

/-- Claim C10 witness: the success postcondition instantiated at copying
one byte of `#vu8(1 2 3)` into `#vu8(4 5)` at offset 0, observed at
target index 0. -/
theorem bytevectorCopyBang_frame_witness :
    ([1, 5] : List Nat)[0]? = some 1 := by
  have h := (bytevectorCopyBang_frame [1, 2, 3] 0 [4, 5] 0 1
    (by norm_num) (by norm_num) (by norm_num)).2.2 [1, 5] (by decide)
  have h0 := h.2 0 (by decide)
  rw [h0]
  decide

mutual

/-- Compilation only appends to the instruction stream. -/
theorem bytecode_emits (a : CAst) (c c' : CompilerState)
    (h : bytecode a c = .ok c') : ∃ d, c'.code = c.code ++ d := by
  cases a with
  | constant v =>
    replace h := Except.ok.inj h
    subst h
    exact ⟨[.cConst v], rfl⟩
  | identifier name =>
    replace h := Except.ok.inj h
    subst h
    exact ⟨[.cGlobal name], rfl⟩
  | sequence items =>
    obtain ⟨ds, _, hcode⟩ := bytecodeList_emits items c c' (by simpa [bytecode] using h)
    exact ⟨ds, hcode⟩
  | letForm captures tail bindings body =>
    simp only [bytecode] at h
    cases heq1 : bytecodeBindings bindings (addPushS c bindings.length captures) with
    | error e => rw [heq1] at h; simp at h
    | ok c1 =>
      rw [heq1] at h
      replace h : (match bytecodeList body c1 with
          | Except.error e => Except.error e
          | Except.ok c3 =>
            Except.ok (if tail = true then c3
                       else addPopS c3 bindings.length captures)) =
          Except.ok c' := h
      cases heq2 : bytecodeList body c1 with
      | error e => rw [heq2] at h; simp at h
      | ok c2 =>
        rw [heq2] at h
        replace h : Except.ok (if tail = true then c2
            else addPopS c2 bindings.length captures) = Except.ok c' := h
        replace h := Except.ok.inj h
        obtain ⟨dB, _, hBcode⟩ :=
          bytecodeBindings_emits bindings (addPushS c bindings.length captures) c1 heq1
        obtain ⟨dL, _, hLcode⟩ := bytecodeList_emits body c1 c2 heq2
        subst h
        cases tail with
        | true =>
          refine ⟨[CInstr.cPushS bindings.length captures] ++ dB ++ dL, ?_⟩
          simp only [if_true, hLcode, hBcode, addPushS, addInstr, List.append_assoc]
        | false =>
          refine ⟨[CInstr.cPushS bindings.length captures] ++ dB ++ dL ++
            [CInstr.cPopS bindings.length captures], ?_⟩
          simp only [Bool.false_eq_true, if_false, addPopS, addInstr, hLcode, hBcode,
            addPushS, List.append_assoc]

/-- The bindings loop appends, interleaving each initializer's
instructions with its `LocalSet`/`EnvSet`. -/
theorem bytecodeBindings_emits (bs : List CLetBinding) (c c' : CompilerState)
    (h : bytecodeBindings bs c = .ok c') :
    ∃ ds, EmitsBindings c bs ds c' ∧ c'.code = c.code ++ ds := by
  cases bs with
  | nil =>
    replace h := Except.ok.inj h
    subst h
    exact ⟨[], .nil c, by simp⟩
  | cons bi rest =>
    cases bi with
    | mk b init =>
      simp only [bytecodeBindings] at h
      cases heq : bytecode init c with
      | error e => rw [heq] at h; simp at h
      | ok c1 =>
        rw [heq] at h
        obtain ⟨d, hd⟩ := bytecode_emits init c c1 heq
        obtain ⟨ds, hrest, hcode⟩ :=
          bytecodeBindings_emits rest (addInstr c1 (letSetInstr b)) c' h
        refine ⟨d ++ [letSetInstr b] ++ ds,
          EmitsBindings.cons c c1 c' b init rest d ds ⟨heq, hd⟩ hrest, ?_⟩
        simp only [addInstr] at hcode
        rw [hcode, hd]
        simp [List.append_assoc]

/-- The expression-list loop appends each item's instructions in
order. -/
theorem bytecodeList_emits (items : List CAst) (c c' : CompilerState)
    (h : bytecodeList items c = .ok c') :
    ∃ ds, EmitsList c items ds c' ∧ c'.code = c.code ++ ds := by
  cases items with
  | nil =>
    replace h := Except.ok.inj h
    subst h
    exact ⟨[], .nil c, by simp⟩
  | cons a rest =>
    simp only [bytecodeList] at h
    cases heq : bytecode a c with
    | error e => rw [heq] at h; simp at h
    | ok c1 =>
      rw [heq] at h
      obtain ⟨d, hd⟩ := bytecode_emits a c c1 heq
      obtain ⟨ds, hrest, hcode⟩ := bytecodeList_emits rest c1 c' h
      refine ⟨d ++ ds, EmitsList.cons c c1 c' a rest d ds ⟨heq, hd⟩ hrest, ?_⟩
      rw [hcode, hd]
      simp [List.append_assoc]

end

/-- Claim C6: for every let form with `n` bindings, the compiler emits
exactly `PushS n` (carrying the captures flag), then for each binding
its initializer's instructions followed by its `LocalSet` (stack frame)
or `EnvSet` (heap frame), then the body expressions in order, and the
closing `PopS n` if and only if the let is not in tail position. -/
theorem astLet_bytecode_shape (captures tail : Bool)
    (bindings : List CLetBinding) (body : List CAst) (c c' : CompilerState)
    (h : bytecode (.letForm captures tail bindings body) c = .ok c') :
    ∃ (dBind dBody : List CInstr) (c1 c2 : CompilerState),
      EmitsBindings (addPushS c bindings.length captures) bindings dBind c1 ∧
      EmitsList c1 body dBody c2 ∧
      c'.code = c.code ++ [CInstr.cPushS bindings.length captures] ++ dBind ++
        dBody ++
        (if tail then [] else [CInstr.cPopS bindings.length captures]) := by
  simp only [bytecode] at h
  cases heq1 : bytecodeBindings bindings (addPushS c bindings.length captures) with
  | error e => rw [heq1] at h; simp at h
  | ok c1 =>
    rw [heq1] at h
    replace h : (match bytecodeList body c1 with
        | Except.error e => Except.error e
        | Except.ok c3 =>
          Except.ok (if tail = true then c3
                     else addPopS c3 bindings.length captures)) =
        Except.ok c' := h
    cases heq2 : bytecodeList body c1 with
    | error e => rw [heq2] at h; simp at h
    | ok c2 =>
      rw [heq2] at h
      replace h : Except.ok (if tail = true then c2
          else addPopS c2 bindings.length captures) = Except.ok c' := h
      replace h := Except.ok.inj h
      obtain ⟨dB, hEB, hBcode⟩ :=
        bytecodeBindings_emits bindings (addPushS c bindings.length captures) c1 heq1
      obtain ⟨dL, hEL, hLcode⟩ := bytecodeList_emits body c1 c2 heq2
      refine ⟨dB, dL, c1, c2, hEB, hEL, ?_⟩
      subst h
      cases tail with
      | true =>
        simp only [if_true, hLcode, hBcode, addPushS, addInstr,
          List.append_assoc, List.append_nil]
      | false =>
        simp only [Bool.false_eq_true, if_false, addPopS, addInstr, hLcode,
          hBcode, addPushS, List.append_assoc]

/-- Claim C6 witness: compiling the fixture non-tail let form
`(let ((x 1)) 2)` from the empty stream begins with its `PushS 1` and
ends with its matching `PopS 1`. -/
theorem astLet_bytecode_shape_witness :
    cLetW.code.head? = some (CInstr.cPushS 1 false) ∧
    cLetW.code.getLast? = some (CInstr.cPopS 1 false) := by
  obtain ⟨dB, dL, c1, c2, _, _, h3⟩ :=
    astLet_bytecode_shape false false [letBindW] [letBodyW] ⟨[]⟩ cLetW rfl
  have h3' : cLetW.code =
      CInstr.cPushS 1 false :: (dB ++ (dL ++ [CInstr.cPopS 1 false])) := by
    simpa using h3
  rw [h3']
  refine ⟨rfl, ?_⟩
  rw [show CInstr.cPushS 1 false :: (dB ++ (dL ++ [CInstr.cPopS 1 false])) =
      (CInstr.cPushS 1 false :: (dB ++ dL)) ++ [CInstr.cPopS 1 false] by simp]
  exact List.getLast?_concat _

/-- Setting a slot does not change the list's length-take below it. -/
theorem take_set_of_le (l : List Scope) (m fp : Nat) (x : Scope) (hm : fp ≤ m) :
    (l.set m x).take fp = l.take fp := by
  apply List.ext_getElem?
  intro n
  rw [List.getElem?_take, List.getElem?_take]
  by_cases hn : n < fp
  · rw [if_pos hn, if_pos hn, List.getElem?_set, if_neg (by omega)]
  · rw [if_neg hn, if_neg hn]

/-- Setting a slot at a positive index leaves the head unchanged. -/
theorem head?_set_pos (l : List Scope) (m : Nat) (x : Scope) (hm : 0 < m) :
    (l.set m x).head? = l.head? := by
  cases l with
  | nil => rfl
  | cons a t =>
    cases m with
    | zero => omega
    | succ k => rfl

/-- A scope freshly allocated by `pushScope` is never a one-frame
scope. -/
theorem replicate_ne_frame (n : Nat) (f : FrameV) :
    List.replicate n Val.vNil ≠ [Val.vFrame f] := by
  intro h
  have hl := congrArg List.length h
  simp [List.length_replicate] at hl
  subst hl
  simp [List.replicate] at h

/-- The frame-chain invariant ignores writes strictly above `fp`. -/
theorem chainOK_set_above (stack : List Scope) (fp m : Nat) (x : Scope)
    (hm : fp < m) : chainOK (stack.set m x) fp = chainOK stack fp := by
  rw [chainOK.eq_def, chainOK.eq_def]
  have h1 : (stack.set m x).length = stack.length := List.length_set stack m x
  have h2 : (stack.set m x).take fp = stack.take fp :=
    take_set_of_le stack m fp x (by omega)
  have h3 : headFrameOK (stack.set m x) = headFrameOK stack := by
    unfold headFrameOK
    rw [head?_set_pos stack m x (by omega)]
  by_cases hfp : fp = 0
  · simp only [hfp, if_true, h3]
  · simp only [if_neg hfp, h1, h2]
    by_cases hlt : fp < stack.length
    · rw [dif_pos hlt, dif_pos hlt]
      have hlt3 : fp < (stack.set m x).length := by
        rw [List.length_set]
        exact hlt
      have h4 : (stack.set m x)[fp] = stack[fp] := by
        rw [List.getElem_set]
        exact if_neg (by omega)
      rw [h4]
    · rw [dif_neg hlt, dif_neg hlt]

/-- The frame-chain invariant survives pushing a non-frame scope. -/
theorem chainOK_append (stack : List Scope) (fp : Nat) (sc : Scope)
    (hsc : ∀ f, sc ≠ [Val.vFrame f]) (h : chainOK stack fp = true) :
    chainOK (stack ++ [sc]) fp = true := by
  rw [chainOK.eq_def] at h ⊢
  by_cases hfp : fp = 0
  · simp only [hfp, if_true] at h ⊢
    cases stack with
    | nil =>
      simp only [List.nil_append]
      unfold headFrameOK
      simp only [List.head?_cons]
      rcases sc with _ | ⟨v, rest⟩
      · rfl
      · cases v with
        | vFrame f =>
          cases rest with
          | nil => exact absurd rfl (hsc f)
          | cons b t => rfl
        | vNil => rfl
        | vBool b => rfl
        | vNum n => rfl
        | vStr s => rfl
        | vSym name => rfl
        | vLam l => rfl
    | cons a t =>
      unfold headFrameOK at h ⊢
      simp only [List.cons_append, List.head?_cons] at h ⊢
      exact h
  · simp only [if_neg hfp] at h ⊢
    by_cases hlt : fp < stack.length
    · rw [dif_pos hlt] at h
      rw [dif_pos (by simp only [List.length_append]; omega :
        fp < (stack ++ [sc]).length)]
      have hlt3 : fp < (stack ++ [sc]).length := by
        simp only [List.length_append]
        omega
      have hget : (stack ++ [sc])[fp] =
          stack[fp] := List.getElem_append_left hlt
      rw [hget]
      have htake : (stack ++ [sc]).take fp = stack.take fp := by
        rw [List.take_append_eq_append_take]
        have hz : fp - stack.length = 0 := by omega
        rw [hz, List.take_zero, List.append_nil]
      rw [htake]
      exact h
    · rw [dif_neg hlt] at h
      cases h

/-- `pushFrame` establishes the frame-chain invariant. -/
theorem pushFrame_chainOK (lam : Option LambdaV) (top : Bool) (s s' : VMState)
    (h : chainOK s.stack s.fp = true) (hp : pushFrameFn lam top s = .ok s') :
    chainOK s'.stack s'.fp = true := by
  unfold pushFrameFn at hp
  cases hg : s.stack[s.fp]? with
  | none =>
    rw [hg] at hp
    replace hp := Except.ok.inj hp
    subst hp
    have hlen : s.stack.length ≤ s.fp := List.getElem?_eq_none_iff.mp hg
    have hfp0 : s.fp = 0 := by
      rw [chainOK.eq_def] at h
      by_cases hfp : s.fp = 0
      · exact hfp
      · rw [if_neg hfp, dif_neg (by omega)] at h
        cases h
    have hnil : s.stack = [] := by
      cases hs : s.stack with
      | nil => rfl
      | cons a t => rw [hs] at hlen; simp at hlen; omega
    show chainOK (s.stack ++ [[Val.vFrame ⟨s.fp, lam, top⟩]]) s.stack.length = true
    rw [hnil, hfp0]
    rw [chainOK.eq_def]
    rfl
  | some scope =>
    rw [hg] at hp
    obtain ⟨hlt, -⟩ := List.getElem?_eq_some.mp hg
    rcases scope with _ | ⟨v, rest⟩
    · cases hp
    · cases v with
      | vFrame f0 =>
        cases rest with
        | nil =>
          replace hp := Except.ok.inj hp
          subst hp
          show chainOK (s.stack ++ [[Val.vFrame ⟨s.fp, lam, top⟩]])
            s.stack.length = true
          rw [chainOK.eq_def]
          have hne : ¬ s.stack.length = 0 := by omega
          rw [if_neg hne, dif_pos (by simp :
            s.stack.length < (s.stack ++ [[Val.vFrame ⟨s.fp, lam, top⟩]]).length)]
          have hlt3 : s.stack.length <
              (s.stack ++ [[Val.vFrame ⟨s.fp, lam, top⟩]]).length := by simp
          have hget : (s.stack ++
                [[Val.vFrame ⟨s.fp, lam, top⟩]])[s.stack.length] =
              [Val.vFrame ⟨s.fp, lam, top⟩] := by
            rw [List.getElem_append_right (le_refl s.stack.length)]
            simp
          rw [hget]
          have htake : (s.stack ++ [[Val.vFrame ⟨s.fp, lam, top⟩]]).take
              s.stack.length = s.stack := List.take_left s.stack _
          rw [htake]
          simp only [Bool.and_eq_true, decide_eq_true_eq]
          exact ⟨hlt, h⟩
        | cons b t => cases hp
      | vNil => cases hp
      | vBool b => cases hp
      | vNum n => cases hp
      | vStr str => cases hp
      | vSym name => cases hp
      | vLam l => cases hp

/-- `popFrame` preserves the frame-chain invariant. -/
theorem popFrame_chainOK (s s' : VMState)
    (h : chainOK s.stack s.fp = true) (hp : popFrameFn s = .ok s') :
    chainOK s'.stack s'.fp = true := by
  unfold popFrameFn at hp
  cases hg : s.stack[s.fp]? with
  | none => rw [hg] at hp; cases hp
  | some scope =>
    rw [hg] at hp
    rcases scope with _ | ⟨v, rest⟩
    · cases hp
    · cases v with
      | vFrame f =>
        cases rest with
        | nil =>
          replace hp := Except.ok.inj hp
          subst hp
          show chainOK (s.stack.take s.fp) f.next = true
          rw [chainOK.eq_def] at h
          by_cases hfp : s.fp = 0
          · rw [if_pos hfp] at h
            have hhead : s.stack.head? = some [Val.vFrame f] := by
              rw [List.head?_eq_getElem?, ← hfp]
              exact hg
            unfold headFrameOK at h
            rw [hhead] at h
            have hnext : f.next = 0 := by simpa using h
            rw [hfp, List.take_zero, hnext]
            rw [chainOK.eq_def]
            rfl
          · rw [if_neg hfp] at h
            have hlt : s.fp < s.stack.length := by
              by_contra habs
              rw [dif_neg habs] at h
              cases h
            rw [dif_pos hlt] at h
            have hget : s.stack[s.fp] = [Val.vFrame f] := by
              rw [List.getElem?_eq_getElem hlt] at hg
              exact Option.some.inj hg
            rw [hget] at h
            simp only [Bool.and_eq_true, decide_eq_true_eq] at h
            exact h.2
        | cons b t => cases hp
      | vNil => cases hp
      | vBool b => cases hp
      | vNum n => cases hp
      | vStr str => cases hp
      | vSym name => cases hp
      | vLam l => cases hp

/-- The frame-chain invariant yields the claimed frame-slot shape. -/
theorem chainOK_spec (stack : List Scope) (fp : Nat)
    (h : chainOK stack fp = true) :
    fp = 0 ∨ ∃ f, stack[fp]? = some [Val.vFrame f] := by
  rw [chainOK.eq_def] at h
  by_cases hfp : fp = 0
  · exact Or.inl hfp
  · right
    rw [if_neg hfp] at h
    by_cases hlt : fp < stack.length
    · rw [dif_pos hlt] at h
      rcases hget : stack[fp] with _ | ⟨v, rest⟩
      · rw [hget] at h; cases h
      · cases v with
        | vFrame f =>
          cases rest with
          | nil => exact ⟨f, by rw [List.getElem?_eq_getElem hlt, hget]⟩
          | cons b t => rw [hget] at h; cases h
        | vNil => rw [hget] at h; cases h
        | vBool b => rw [hget] at h; cases h
        | vNum n => rw [hget] at h; cases h
        | vStr str => rw [hget] at h; cases h
        | vSym name => rw [hget] at h; cases h
        | vLam l => rw [hget] at h; cases h
    · rw [dif_neg hlt] at h
      cases h

/-- Every state reachable by the `Execute` loop satisfies the
frame-chain invariant. -/
theorem reaches_chainOK (N : NativeTable) (s : VMState) (h : Reaches N s) :
    chainOK s.stack s.fp = true := by
  induction h with
  | init g =>
    show chainOK [[Val.vFrame ⟨0, none, true⟩]] 0 = true
    rw [chainOK.eq_def]
    rfl
  | step s ins s' hr hstep ih =>
    obtain ⟨op, vv, ii, jj, ssym⟩ := ins
    cases op with
    | opConst =>
      replace hstep : StepRes.next { s with pc := s.pc + 1, accu := vv } =
        .next s' := hstep
      replace hstep := StepRes.next.inj hstep
      subst hstep
      exact ih
    | opDefine =>
      replace hstep : StepRes.next
          { s with
            pc := s.pc + 1
            globals := fun n => if n = ssym then s.accu else s.globals n } =
        .next s' := hstep
      replace hstep := StepRes.next.inj hstep
      subst hstep
      exact ih
    | opLambda =>
      replace hstep : StepRes.next
          { s with pc := s.pc + 1, accu := .vLam ⟨1, 1, none, ii, jj⟩ } =
        .next s' := hstep
      replace hstep := StepRes.next.inj hstep
      subst hstep
      exact ih
    | opGlobal =>
      replace hstep : StepRes.next
          { s with pc := s.pc + 1, accu := s.globals ssym } =
        .next s' := hstep
      replace hstep := StepRes.next.inj hstep
      subst hstep
      exact ih
    | opLocalSet =>
      unfold execInstr at hstep
      dsimp only at hstep
      repeat' split at hstep
      all_goals try cases hstep
      dsimp only
      rw [chainOK_set_above s.stack s.fp (s.fp + 1 + ii) _ (by omega)]
      exact ih
    | opPushF =>
      unfold execInstr at hstep
      dsimp only at hstep
      repeat' split at hstep
      all_goals try cases hstep
      rename_i heqpush
      refine pushFrame_chainOK _ _ _ _ ?_ heqpush
      exact ih
    | opPushS =>
      replace hstep : StepRes.next
          { s with
            pc := s.pc + 1
            stack := s.stack ++ [List.replicate ii Val.vNil] } =
        .next s' := hstep
      replace hstep := StepRes.next.inj hstep
      subst hstep
      exact chainOK_append s.stack s.fp _ (replicate_ne_frame ii) ih
    | opCall =>
      unfold execInstr at hstep
      dsimp only at hstep
      repeat' split at hstep
      all_goals try cases hstep
      rename_i heqpop
      refine popFrame_chainOK _ _ ?_ heqpop
      exact ih
    | opHalt =>
      unfold execInstr at hstep
      dsimp only at hstep
      repeat' split at hstep
      all_goals cases hstep
    | opLabel =>
      replace hstep : StepRes.fail "not implemented" = .next s' := hstep
      cases hstep
    | opLocal =>
      replace hstep : StepRes.fail "not implemented" = .next s' := hstep
      cases hstep
    | opGlobalSet =>
      replace hstep : StepRes.fail "not implemented" = .next s' := hstep
      cases hstep
    | opPopF =>
      replace hstep : StepRes.fail "not implemented" = .next s' := hstep
      cases hstep
    | opPopS =>
      replace hstep : StepRes.fail "not implemented" = .next s' := hstep
      cases hstep
    | opReturn =>
      replace hstep : StepRes.fail "not implemented" = .next s' := hstep
      cases hstep

/-- Claim C2: at every state reachable by the instruction-execution step
relation from the VM's initial state, the frame pointer is `0` or
addresses a stack scope holding exactly one value, and that value is a
`Frame` (`pushFrame` establishes the underlying chain invariant and
`popFrame` preserves it, per the preservation lemmas above). -/
theorem vm_frame_invariant (N : NativeTable) (s : VMState)
    (h : Reaches N s) :
    s.fp = 0 ∨ ∃ f, s.stack[s.fp]? = some [Val.vFrame f] :=
  chainOK_spec s.stack s.fp (reaches_chainOK N s h)

/-- Claim C2 witness: the invariant at the concrete initial state. -/
theorem vm_frame_invariant_witness : (initVM gNilW).fp = 0 :=
  (vm_frame_invariant NOkW (initVM gNilW) (Reaches.init gNilW)).elim
    id (fun _ => rfl)

/-- Claim C1: for every `Call` of a native lambda with `argc` arguments,
the VM returns the `too few arguments` error if and only if
`argc < MinArgs` and the `too many arguments` error if and only if
`argc > MaxArgs`; outside `[min, max]` the native table is never
consulted (the step result is the same for every native table), and
within `[min, max]` the step is exactly the native invocation on the
argument slice — whose length therefore lies in `[min, max]`.  The
native is assumed not to fabricate the VM's own arity-error strings. -/
theorem opCall_arity (N : NativeTable) (s : VMState) (ins : Instr)
    (f : FrameV) (lam : LambdaV) (nid : Nat) (args : List Val)
    (hop : ins.op = .opCall)
    (hframe : s.stack[s.fp]? = some [Val.vFrame f])
    (hlam : f.lambda = some lam)
    (hnat : lam.native = some nid)
    (hmm : lam.minArgs ≤ lam.maxArgs)
    (hargs : s.stack.getLast? = some args)
    (hclean : ∀ a e, N nid a = .error e →
      e ≠ "too few arguments" ∧ e ≠ "too many arguments") :
    (execInstr N ins s = .fail "too few arguments" ↔
      args.length < lam.minArgs) ∧
    (execInstr N ins s = .fail "too many arguments" ↔
      args.length > lam.maxArgs) ∧
    ((args.length < lam.minArgs ∨ args.length > lam.maxArgs) →
      ∀ N2 : NativeTable, execInstr N2 ins s = execInstr N ins s) ∧
    (lam.minArgs ≤ args.length ∧ args.length ≤ lam.maxArgs →
      execInstr N ins s =
        match N nid args with
        | .ok v' =>
          match popFrameFn { s with pc := s.pc + 1, accu := v' } with
          | .ok s2 => StepRes.next s2
          | .error e => StepRes.panicked e
        | .error e => StepRes.fail e) := by
  obtain ⟨op, vv, ii, jj, ssym⟩ := ins
  simp only at hop
  subst hop
  have hred : ∀ N2 : NativeTable,
      execInstr N2 ⟨Operand.opCall, vv, ii, jj, ssym⟩ s =
        (if args.length < lam.minArgs then StepRes.fail "too few arguments"
         else if args.length > lam.maxArgs then
           StepRes.fail "too many arguments"
         else
           match N2 nid args with
           | .ok v' =>
             match popFrameFn { s with pc := s.pc + 1, accu := v' } with
             | .ok s2 => StepRes.next s2
             | .error e => StepRes.panicked e
           | .error e => StepRes.fail e) := by
    intro N2
    unfold execInstr
    dsimp only
    rw [hframe]
    simp only [List.getElem?_cons_zero]
    rw [hlam]
    simp only
    rw [hargs]
    simp only
    rw [hnat]
  by_cases h1 : args.length < lam.minArgs
  · refine ⟨⟨fun _ => h1, fun _ => by rw [hred, if_pos h1]⟩,
      ⟨fun hc => ?_, fun hgt => absurd hgt (by omega)⟩,
      fun _ N2 => by rw [hred, hred, if_pos h1, if_pos h1],
      fun hin => absurd hin.1 (by omega)⟩
    rw [hred, if_pos h1] at hc
    exact absurd (StepRes.fail.inj hc) (by decide)
  · by_cases h2 : args.length > lam.maxArgs
    · refine ⟨⟨fun hc => ?_, fun hlt => absurd hlt h1⟩,
        ⟨fun _ => h2, fun _ => by rw [hred, if_neg h1, if_pos h2]⟩,
        fun _ N2 => by rw [hred, hred, if_neg h1, if_pos h2, if_neg h1, if_pos h2],
        fun hin => absurd hin.2 (by omega)⟩
      rw [hred, if_neg h1, if_pos h2] at hc
      exact absurd (StepRes.fail.inj hc) (by decide)
    · refine ⟨⟨fun hc => ?_, fun hlt => absurd hlt h1⟩,
        ⟨fun hc => ?_, fun hgt => absurd hgt h2⟩,
        fun hd => absurd hd (by push_neg; omega),
        fun _ => by rw [hred, if_neg h1, if_neg h2]⟩
      · rw [hred, if_neg h1, if_neg h2] at hc
        cases hN : N nid args with
        | ok v2 =>
          rw [hN] at hc
          dsimp only at hc
          cases hpop : popFrameFn { s with pc := s.pc + 1, accu := v2 } with
          | ok s2 => rw [hpop] at hc; dsimp only at hc; cases hc
          | error e => rw [hpop] at hc; dsimp only at hc; cases hc
        | error e =>
          rw [hN] at hc
          dsimp only at hc
          exact absurd (StepRes.fail.inj hc) (hclean args e hN).1
      · rw [hred, if_neg h1, if_neg h2] at hc
        cases hN : N nid args with
        | ok v2 =>
          rw [hN] at hc
          dsimp only at hc
          cases hpop : popFrameFn { s with pc := s.pc + 1, accu := v2 } with
          | ok s2 => rw [hpop] at hc; dsimp only at hc; cases hc
          | error e => rw [hpop] at hc; dsimp only at hc; cases hc
        | error e =>
          rw [hN] at hc
          dsimp only at hc
          exact absurd (StepRes.fail.inj hc) (hclean args e hN).2

/-- Claim C1 witness: the too-few-arguments equivalence at a concrete
call state whose one-argument slice matches the native arity `[1, 1]`. -/
theorem opCall_arity_witness :
    (execInstr NOkW callInsW sCallW = .fail "too few arguments" ↔
      ([Val.vNil] : List Val).length < lamW.minArgs) :=
  (opCall_arity NOkW sCallW callInsW frameCallW lamW 0 [Val.vNil]
    rfl rfl rfl rfl (by decide) rfl
    (fun a e h => by cases h)).1

/-- Claim C4 counterexample: executing the `Global` instruction on a
symbol with no defined global value does not fail — it yields the next
state with a `nil` accumulator. -/
theorem opGlobal_undefined_no_error :
    execInstr NOkW globalInsW (initVM gNilW) =
      .next { pc := 1, fp := 0, accu := Val.vNil
              stack := [[Val.vFrame ⟨0, none, true⟩]], globals := gNilW } := rfl

/-- Claim C4 (amended): executing the `Global` instruction always
succeeds, setting the accumulator to the symbol's global binding (the
Go `nil` value when undefined, without any error); the embedder-level
`Scheme.Global` returns an error exactly when the name has no interned
symbol carrying the `Defined` flag. -/
theorem opGlobal_loads_and_schemeGlobal_defined :
    (∀ (N : NativeTable) (ins : Instr) (s : VMState), ins.op = .opGlobal →
      execInstr N ins s =
        .next { s with pc := s.pc + 1, accu := s.globals ins.sym }) ∧
    (∀ (tbl : SymTable) (name : String),
      (∃ e, schemeGlobal tbl name = .error e) ↔
        ¬ ∃ id, tbl name = some id ∧ id.flags.defined = true) := by
  constructor
  · intro N ins s hop
    obtain ⟨op, v, i, j, sym⟩ := ins
    simp only at hop
    subst hop
    rfl
  · intro tbl name
    unfold schemeGlobal
    rcases h : tbl name with _ | id
    · simp [h]
    · rcases hd : id.flags.defined with _ | _ <;> simp [h, hd]

/-- Claim C4 witness: the instruction-level part at the concrete
`Global x` instruction. -/
theorem opGlobal_loads_and_schemeGlobal_defined_witness :
    execInstr NOkW globalInsW sCallW =
      .next { sCallW with pc := sCallW.pc + 1, accu := sCallW.globals globalInsW.sym } :=
  opGlobal_loads_and_schemeGlobal_defined.1 NOkW globalInsW sCallW rfl

end Scm
